import Mathlib

/-!
Verification of the redis-view namespace-tree engine (main.go).

Go strings are byte slices, so the embedding models every Go string as a
list of byte values (GoStr, a list of Nat below 256 in practice).  String
literals of the source are written through the helper bs, which UTF-8
encodes a Lean string literal, matching Go source literals byte for byte.
Go maps (map[string]treeNode) are modelled as association lists in
insertion order; map assignment mapSet replaces the binding when the key
is present and appends it otherwise, and iteration order never matters
because the code sorts keys (mapKeys) before visiting them.
-/

namespace RedisView

/-- A Go string: its sequence of bytes. -/
abbrev GoStr := List Nat

/-- UTF-8 encoding of one character, as byte values. -/
def utf8Char (c : Char) : List Nat :=
  let n := c.toNat
  if n < 0x80 then [n]
  else if n < 0x800 then [0xC0 + n / 0x40, 0x80 + n % 0x40]
  else if n < 0x10000 then
    [0xE0 + n / 0x1000, 0x80 + n / 0x40 % 0x40, 0x80 + n % 0x40]
  else
    [0xF0 + n / 0x40000, 0x80 + n / 0x1000 % 0x40,
     0x80 + n / 0x40 % 0x40, 0x80 + n % 0x40]

/-- Bytes of a Go string literal (UTF-8, as in Go source text). -/
def bs (s : String) : GoStr :=
  (s.data.map utf8Char).flatten

/-- Byte-wise lexicographic strict order on Go strings: the order used by
Go's sort.Strings (string comparison in Go is byte-lexicographic). -/
def bytesLt : GoStr → GoStr → Bool
  | [], [] => false
  | [], _ :: _ => true
  | _ :: _, [] => false
  | a :: as, b :: bs => a < b || (a == b && bytesLt as bs)

/-- The strict order as a proposition. -/
def bltP (a b : GoStr) : Prop := bytesLt a b = true

/-- The non-strict order (not greater), as used by a comparison sort. -/
def bleP (a b : GoStr) : Prop := bytesLt b a = false

instance : DecidableRel bltP := fun a b =>
  inferInstanceAs (Decidable (bytesLt a b = true))

instance : DecidableRel bleP := fun a b =>
  inferInstanceAs (Decidable (bytesLt b a = false))

theorem bytesLt_irrefl (a : GoStr) : bytesLt a a = false := by
  induction a with
  | nil => rfl
  | cons x xs ih => simp [bytesLt, ih]

theorem bytesLt_trans {a b c : GoStr} (h1 : bytesLt a b = true)
    (h2 : bytesLt b c = true) : bytesLt a c = true := by
  induction a generalizing b c with
  | nil =>
    cases b with
    | nil => simp [bytesLt] at h1
    | cons y ys => cases c with
      | nil => simp [bytesLt] at h2
      | cons z zs => simp [bytesLt]
  | cons x xs ih =>
    cases b with
    | nil => simp [bytesLt] at h1
    | cons y ys =>
      cases c with
      | nil => simp [bytesLt] at h2
      | cons z zs =>
        simp [bytesLt] at h1 h2 ⊢
        rcases h1 with h1 | ⟨hxy, h1⟩
        · rcases h2 with h2 | ⟨hyz, h2⟩
          · exact Or.inl (h1.trans h2)
          · exact Or.inl (hyz ▸ h1)
        · rcases h2 with h2 | ⟨hyz, h2⟩
          · exact Or.inl (hxy ▸ h2)
          · exact Or.inr ⟨hxy.trans hyz, ih h1 h2⟩

theorem bytesLt_connex {a b : GoStr} (h1 : bytesLt a b = false)
    (h2 : bytesLt b a = false) : a = b := by
  induction a generalizing b with
  | nil => cases b with
    | nil => rfl
    | cons y ys => simp [bytesLt] at h1
  | cons x xs ih =>
    cases b with
    | nil => simp [bytesLt] at h2
    | cons y ys =>
      simp [bytesLt] at h1 h2
      have hxy : x = y := le_antisymm h2.1 h1.1
      subst hxy
      exact congrArg (x :: ·) (ih (h1.2 rfl) (h2.2 rfl))

theorem bytesLt_asymm {a b : GoStr} (h : bytesLt a b = true) :
    bytesLt b a = false := by
  by_contra hc
  have hba : bytesLt b a = true := by
    cases hh : bytesLt b a with
    | false => exact absurd hh hc
    | true => rfl
  have : bytesLt a a = true := bytesLt_trans h hba
  rw [bytesLt_irrefl] at this
  exact Bool.false_ne_true this

instance : IsTotal GoStr bleP := by
  constructor
  intro a b
  cases h : bytesLt b a with
  | false => exact Or.inl h
  | true => exact Or.inr (bytesLt_asymm h)

instance : IsTrans GoStr bleP := by
  constructor
  intro a b c hab hbc
  unfold bleP at *
  cases h : bytesLt c a with
  | false => rfl
  | true =>
    exfalso
    cases hbc2 : bytesLt b c with
    | true =>
      have hba : bytesLt b a = true := bytesLt_trans hbc2 h
      rw [hba] at hab
      simp at hab
    | false =>
      have hbeq : b = c := bytesLt_connex hbc2 hbc
      subst hbeq
      rw [h] at hab
      simp at hab

instance : IsAntisymm GoStr bleP := by
  constructor
  intro a b hab hba
  exact (bytesLt_connex hba hab)

theorem bltP_of_bleP_ne {a b : GoStr} (h : bleP a b) (hne : a ≠ b) :
    bltP a b := by
  unfold bleP at h
  unfold bltP
  cases hab : bytesLt a b with
  | true => rfl
  | false => exact absurd (bytesLt_connex hab h) hne

/-! ### Go strings.Split

Go's strings.Split(s, sep) with a non-empty separator cuts s at every
leftmost non-overlapping occurrence of sep; an empty s yields one empty
piece.  With an empty separator Go explodes the string into its
characters.  findOcc returns the leftmost index at which sep occurs. -/

/-- Leftmost occurrence index of sep in s, scanning byte by byte. -/
def findOcc (sep : GoStr) : GoStr → Option Nat
  | [] => if sep = [] then some 0 else none
  | c :: rest =>
    if sep.isPrefixOf (c :: rest) then some 0
    else (findOcc sep rest).map (· + 1)

/-- One splitting step per unit of fuel; fuel at least the length of s is
always enough because each found occurrence consumes at least one byte. -/
def splitGoF (sep : GoStr) : Nat → GoStr → List GoStr
  | 0, s => [s]
  | fuel + 1, s =>
    match findOcc sep s with
    | none => [s]
    | some i => s.take i :: splitGoF sep fuel (s.drop (i + sep.length))

/-- Go strings.Split. The empty-separator branch explodes the string
(byte-wise here; identical to Go's rune-wise explode on ASCII data). -/
def goSplit (s sep : GoStr) : List GoStr :=
  if sep = [] then s.map (fun c => [c])
  else splitGoF sep (s.length + 1) s

/-! ### The namespace trie (type treeNode of the source) -/

/-- The trie node of the source: a label (field value) and a children
map, modelled as an association list in insertion order. -/
inductive TreeNode : Type where
  | mk : GoStr → List (GoStr × TreeNode) → TreeNode

/-- The value field of a node (its displayed label). -/
def TreeNode.value : TreeNode → GoStr
  | .mk v _ => v

/-- The children map of a node. -/
def TreeNode.children : TreeNode → List (GoStr × TreeNode)
  | .mk _ cs => cs

/-- Go map lookup m[k] (the first binding of the key, and well-formed
maps bind a key at most once). -/
def findChild : List (GoStr × TreeNode) → GoStr → Option TreeNode
  | [], _ => none
  | (l, c) :: rest, k => if l = k then some c else findChild rest k

/-- Go map assignment m[k] = v: replace the binding when the key is
present, append a new binding otherwise. -/
def mapSet : List (GoStr × TreeNode) → GoStr → TreeNode → List (GoStr × TreeNode)
  | [], k, v => [(k, v)]
  | (l, c) :: rest, k, v =>
    if l = k then (k, v) :: rest else (l, c) :: mapSet rest k v

/-- The inner loop of populate for one key: descend the segments,
creating a fresh node (value = segment, empty children) whenever the
segment is absent at the current position. -/
def insertPath : TreeNode → List GoStr → TreeNode
  | t, [] => t
  | .mk v cs, p :: ps =>
    match findChild cs p with
    | none => .mk v (mapSet cs p (insertPath (.mk p []) ps))
    | some c => .mk v (mapSet cs p (insertPath c ps))

/-- populate of the source: ingest each key in order, splitting it on
sep. -/
def populate (tree : TreeNode) (keys : List GoStr) (sep : GoStr) : TreeNode :=
  keys.foldl (fun t key => insertPath t (goSplit key sep)) tree

/-- The root created in main: value "/" and a freshly allocated empty
children map. -/
def freshRoot : TreeNode := .mk (bs "/") []

mutual
/-- Structural equality test on trees (labels and children maps,
children compared in list order). -/
def teq : TreeNode → TreeNode → Bool
  | .mk v cs, .mk w ds => v == w && teqL cs ds
/-- Structural equality test on children lists. -/
def teqL : List (GoStr × TreeNode) → List (GoStr × TreeNode) → Bool
  | [], [] => true
  | (l, c) :: r1, (m, d) :: r2 => l == m && teq c d && teqL r1 r2
  | _, _ => false
end

mutual
/-- Total number of nodes of a tree, used as rendering fuel. -/
def tsize : TreeNode → Nat
  | .mk _ cs => 1 + lsize cs
/-- Total number of nodes of a children list. -/
def lsize : List (GoStr × TreeNode) → Nat
  | [] => 0
  | (_, c) :: rest => tsize c + lsize rest
end

theorem tsize_le_lsize_of_mem {p : GoStr × TreeNode}
    {cs : List (GoStr × TreeNode)} (hp : p ∈ cs) : tsize p.2 ≤ lsize cs := by
  induction cs with
  | nil => cases hp
  | cons q rest ihr =>
    cases hp with
    | head => simp [lsize]
    | tail _ hmem =>
      have := ihr hmem
      obtain ⟨m, d⟩ := q
      simp only [lsize]
      omega

/-- Strong induction principle for the nested tree type. -/
theorem treeInd (P : TreeNode → Prop)
    (h : ∀ v cs, (∀ p ∈ cs, P p.2) → P (TreeNode.mk v cs)) : ∀ t, P t := by
  have key : ∀ n t, tsize t ≤ n → P t := by
    intro n
    induction n with
    | zero =>
      intro t ht
      cases t with
      | mk v cs => simp [tsize] at ht
    | succ n ih =>
      intro t ht
      cases t with
      | mk v cs =>
        apply h
        intro p hp
        apply ih
        have h1 := tsize_le_lsize_of_mem hp
        simp only [tsize] at ht
        omega
  intro t
  exact key (tsize t) t le_rfl

theorem teqL_iff_aux : ∀ cs ds : List (GoStr × TreeNode),
    (∀ p ∈ cs, ∀ b, teq p.2 b = true ↔ p.2 = b) →
    (teqL cs ds = true ↔ cs = ds) := by
  intro cs
  induction cs with
  | nil =>
    intro ds _
    cases ds with
    | nil => simp [teqL]
    | cons q es =>
      exact iff_of_false Bool.false_ne_true (by simp)
  | cons p rest ihr =>
    intro ds hih
    obtain ⟨l, c⟩ := p
    cases ds with
    | nil => exact iff_of_false Bool.false_ne_true (by simp)
    | cons q es =>
      obtain ⟨m, d⟩ := q
      have hc := hih (l, c) (by simp)
      have hr := ihr es (fun p hp => hih p (by simp [hp]))
      rw [teqL, Bool.and_eq_true, Bool.and_eq_true, beq_iff_eq]
      constructor
      · rintro ⟨⟨h1, h2⟩, h3⟩
        have h2e : c = d := (hc d).mp h2
        rw [h1, h2e, hr.mp h3]
      · intro heq
        cases heq
        exact ⟨⟨rfl, (hc c).mpr rfl⟩, hr.mpr rfl⟩

theorem teq_iff : ∀ a b : TreeNode, teq a b = true ↔ a = b := by
  intro a
  induction a using treeInd with
  | _ v cs ih =>
    intro b
    cases b with
    | mk w ds =>
      rw [teq, Bool.and_eq_true, beq_iff_eq]
      have hl := teqL_iff_aux cs ds ih
      constructor
      · rintro ⟨hv, hcs⟩
        rw [hv, hl.mp hcs]
      · intro heq
        cases heq
        exact ⟨rfl, hl.mpr rfl⟩

instance : DecidableEq TreeNode := fun a b =>
  decidable_of_iff (teq a b = true) (teq_iff a b)

/-! ### Derived views of the trie used by the proofs -/

mutual
/-- Longest root-to-leaf edge count of a tree. -/
def heightT : TreeNode → Nat
  | .mk _ cs => heightL cs
/-- Longest edge count below a children list. -/
def heightL : List (GoStr × TreeNode) → Nat
  | [] => 0
  | (_, c) :: rest => max (1 + heightT c) (heightL rest)
end

mutual
/-- Every node of a tree, the root included. -/
def subNodes : TreeNode → List TreeNode
  | .mk v cs => .mk v cs :: subNodesL cs
/-- Every node below a children list. -/
def subNodesL : List (GoStr × TreeNode) → List TreeNode
  | [] => []
  | (_, c) :: rest => subNodes c ++ subNodesL rest
end

mutual
/-- Well-formedness of the map modelling: each children list binds a key
at most once, recursively (true of every Go map by construction). -/
def wfT : TreeNode → Bool
  | .mk _ cs => wfL cs
/-- Well-formedness of a children list. -/
def wfL : List (GoStr × TreeNode) → Bool
  | [] => true
  | (l, c) :: rest => !(findChild rest l).isSome && wfT c && wfL rest
end

mutual
/-- Every child bound under key l carries value = l, recursively. -/
def labelsOk : TreeNode → Bool
  | .mk _ cs => labelsOkL cs
/-- Label agreement over a children list. -/
def labelsOkL : List (GoStr × TreeNode) → Bool
  | [] => true
  | (l, c) :: rest => (l == c.value) && labelsOk c && labelsOkL rest
end

/-- Whether the full path ps already exists in the tree. -/
def pathMem : TreeNode → List GoStr → Bool
  | _, [] => true
  | t, p :: ps =>
    match findChild t.children p with
    | none => false
    | some c => pathMem c ps

/-- Insert a pair into a children list, ordered by bytesLt on the keys. -/
def insPair (e : GoStr × TreeNode) : List (GoStr × TreeNode) → List (GoStr × TreeNode)
  | [] => [e]
  | f :: fs => if bytesLt e.1 f.1 then e :: f :: fs else f :: insPair e fs

mutual
/-- Canonical form of a tree: children sorted by label, recursively.
Two trees are equal under label-based structural comparison (the map
view, ignoring insertion order) iff their canonical forms are equal. -/
def canon : TreeNode → TreeNode
  | .mk v cs => .mk v (canonList cs)
/-- Canonical (sorted) form of a children list. -/
def canonList : List (GoStr × TreeNode) → List (GoStr × TreeNode)
  | [] => []
  | (l, c) :: rest => insPair (l, canon c) (canonList rest)
end

/-- insertPath re-expressed on canonical trees: new children enter at
their sorted position instead of at the end. -/
def cinsert : TreeNode → List GoStr → TreeNode
  | t, [] => t
  | .mk v cs, p :: ps =>
    match findChild cs p with
    | none => .mk v (insPair (p, cinsert (.mk p []) ps) cs)
    | some c => .mk v (mapSet cs p (cinsert c ps))

/-! ### The renderer (mapKeys, plotNode, plot of the source) -/

/-- mapKeys of the source: the keys of a children map, sorted ascending
(sort.Strings, byte-lexicographic). -/
def mapKeys (m : List (GoStr × TreeNode)) : List GoStr :=
  List.insertionSort bleP (m.map Prod.fst)

/-- The (label, isLast) pairs of plot's loop over a node's children:
the order in which the siblings are rendered, with the last-sibling
flag index == len(parts)-1 computed exactly as in the source. -/
def siblingOrder (node : TreeNode) : List (GoStr × Bool) :=
  (mapKeys node.children).enum.map
    (fun ip => (ip.2, ip.1 == (mapKeys node.children).length - 1))

/-- One rendered line: the leading rail prefix, the branch glyph, the
node label, the isLast flag it was rendered with, and the key passed to
the lookup collaborator (query) when the node is a leaf. The collaborator
reply and its formatting are outside the core (they follow the recorded
key), so the line records the call rather than its output. -/
structure Line where
  leading : GoStr
  glyph : GoStr
  label : GoStr
  isLast : Bool
  queried : Option GoStr
deriving DecidableEq

/-- plotNode of the source: choose the branch glyph from isLast and,
for a leaf (empty children map), invoke query with the key built by the
caller. -/
def plotNode (node : TreeNode) (key leading : GoStr) (isLast : Bool) : Line :=
  { leading := leading
    glyph := if isLast then bs "└── " else bs "├── "
    label := node.value
    isLast := isLast
    queried := if node.children.isEmpty then some key else none }

/-- The leading prefix plot passes to the recursive call for a child:
four spaces after a last sibling, a vertical-bar rail otherwise. -/
def childLeading (leading : GoStr) (isLast : Bool) : GoStr :=
  if isLast then leading ++ bs "    " else leading ++ bs "│   "

/-- plot of the source, with explicit recursion fuel (any fuel at least
the node count of the tree is enough, one unit is spent per level).
Children are visited in mapKeys order; newKey joins with the byte ":"
(the source hardcodes the colon here, it does not use the configured
separator). A missing map key yields Go's zero value treeNode{}. -/
def plotF : Nat → TreeNode → GoStr → GoStr → List Line
  | 0, _, _, _ => []
  | fuel + 1, node, key, leading =>
    (mapKeys node.children).enum.flatMap (fun ip =>
      let part := ip.2
      let newKey := if key = [] then part else key ++ bs ":" ++ part
      let isLast := ip.1 == (mapKeys node.children).length - 1
      let child := (findChild node.children part).getD (.mk [] [])
      plotNode child newKey leading isLast ::
        plotF fuel child newKey (childLeading leading isLast))

/-- plot of the source (fuel instantiated with the node count). -/
def plot (node : TreeNode) (key leading : GoStr) : List Line :=
  plotF (tsize node) node key leading

/-- Go strings.Join: concatenate with sep between elements. Used to
state what key the spec expects at a leaf (path labels joined with the
configured separator). -/
def joinSep (sep : GoStr) : List GoStr → GoStr
  | [] => []
  | [x] => x
  | x :: xs => x ++ sep ++ joinSep sep xs

/-! ### The value formatter (isBinary, bitset, prettyPrint) -/

/-- The byte test of isBinary's loop: printable ASCII [0x20,0x7E],
newline (10), tab (9), or the literal letters r (114), f (102), b (98)
that the source lists. -/
def visibleByte (b : Nat) : Bool :=
  (decide (32 ≤ b) && decide (b < 127)) || b == 10 || b == 9 ||
    b == 114 || b == 102 || b == 98

/-- The invisible counter of isBinary's loop. -/
def countInvisible (bytes : List Nat) : Nat :=
  bytes.foldl (fun acc b => if visibleByte b then acc else acc + 1) 0

/-- isBinary of the source: empty input is never binary, otherwise the
invisible fraction is compared with the threshold 0.3. The source
compares float64 quotients; the comparison is modelled as the exact
rational test invisible / length >= 3 / 10, cleared of denominators. -/
def isBinary (bytes : List Nat) : Bool :=
  if bytes.length = 0 then false
  else decide (3 * bytes.length ≤ 10 * countInvisible bytes)

/-- The 8-character chunk bitset emits for one byte: the source writes
bit i (of i = 0..7) at chunk position 7-i, so chunk position j holds bit
7-j; 48 and 49 are the bytes of the ASCII characters 0 and 1. -/
def bitsetByte (char : Nat) : List Nat :=
  (List.range 8).map (fun j => if char / 2 ^ (7 - j) % 2 == 1 then 49 else 48)

/-- bitset of the source: one 8-character chunk per input byte,
most-significant bit first. -/
def bitset (bytes : List Nat) : List Nat :=
  (bytes.map bitsetByte).flatten

/-- The fetched value: Go's interface{} holding map[string]string
(hash and zset replies), []string (list and set replies), string, or
nil (unknown type tag: no case of the switch in query assigns val). -/
inductive RVal where
  | hash : List (GoStr × GoStr) → RVal
  | list : List GoStr → RVal
  | str : GoStr → RVal
  | nil : RVal

/-- prettyPrint of the source, parametric in the JSON serializers
(json.Marshal and json.MarshalIndent are external library calls; the
indent unit the source passes is three spaces and the indent prefix is
the caller's prefix, extended with a vertical bar for a non-last line). -/
def prettyPrint (marshal : RVal → GoStr)
    (marshalIndent : RVal → GoStr → GoStr → GoStr)
    (val : RVal) (pre : GoStr) (wrap isLast : Bool) : GoStr :=
  let newPrefix := if !isLast then pre ++ bs "|" else pre
  match val with
  | .hash m =>
    if !wrap || decide (m.length ≤ 1) then marshal val
    else marshalIndent val newPrefix (bs "   ")
  | .list l =>
    if !wrap || decide (l.length ≤ 1) then marshal val
    else marshalIndent val newPrefix (bs "   ")
  | .str s => if isBinary s then bitset s else s
  | .nil => []

/-! ### Decoding bit-strings (stated by the spec's round-trip property) -/

/-- Value of one ASCII bit character: 49 (the character 1) counts 1. -/
def bitVal (c : Nat) : Nat := if c == 49 then 1 else 0

/-- Decode consecutive 8-character chunks as MSB-first binary numerals. -/
def decodeBits : List Nat → List Nat
  | b7 :: b6 :: b5 :: b4 :: b3 :: b2 :: b1 :: b0 :: rest =>
    (bitVal b7 * 128 + bitVal b6 * 64 + bitVal b5 * 32 + bitVal b4 * 16 +
      bitVal b3 * 8 + bitVal b2 * 4 + bitVal b1 * 2 + bitVal b0) :: decodeBits rest
  | _ => []

theorem bitsetByte_eq (b : Nat) : bitsetByte b =
    [if b / 128 % 2 == 1 then 49 else 48,
     if b / 64 % 2 == 1 then 49 else 48,
     if b / 32 % 2 == 1 then 49 else 48,
     if b / 16 % 2 == 1 then 49 else 48,
     if b / 8 % 2 == 1 then 49 else 48,
     if b / 4 % 2 == 1 then 49 else 48,
     if b / 2 % 2 == 1 then 49 else 48,
     if b / 1 % 2 == 1 then 49 else 48] := rfl

set_option maxRecDepth 4000 in
theorem decode_chunk : ∀ b, b < 256 →
    bitVal (if b / 128 % 2 == 1 then 49 else 48) * 128 +
      bitVal (if b / 64 % 2 == 1 then 49 else 48) * 64 +
      bitVal (if b / 32 % 2 == 1 then 49 else 48) * 32 +
      bitVal (if b / 16 % 2 == 1 then 49 else 48) * 16 +
      bitVal (if b / 8 % 2 == 1 then 49 else 48) * 8 +
      bitVal (if b / 4 % 2 == 1 then 49 else 48) * 4 +
      bitVal (if b / 2 % 2 == 1 then 49 else 48) * 2 +
      bitVal (if b / 1 % 2 == 1 then 49 else 48) = b := by decide

theorem bitset_cons (b : Nat) (rest : List Nat) :
    bitset (b :: rest) = bitsetByte b ++ bitset rest := rfl

theorem decode_bitsetByte (b : Nat) (hb : b < 256) (rest : List Nat) :
    decodeBits (bitsetByte b ++ rest) = b :: decodeBits rest := by
  rw [bitsetByte_eq]
  simp only [List.cons_append, List.nil_append, decodeBits]
  congr 1
  exact decode_chunk b hb

/-- Claim C7, part of: the chunk for each byte has length 8. -/
theorem bitsetByte_length (b : Nat) : (bitsetByte b).length = 8 := rfl

set_option maxRecDepth 4000 in
/-- C7: bitset emits 8 ASCII 0/1 bytes per input byte, MSB first, and
decoding every consecutive 8-character chunk as an MSB-first binary
numeral reproduces the input byte sequence. -/
theorem c7_bitset_length_and_roundtrip (bytes : List Nat) :
    (bitset bytes).length = 8 * bytes.length ∧
    (∀ c ∈ bitset bytes, c = 48 ∨ c = 49) ∧
    ((∀ b ∈ bytes, b < 256) → decodeBits (bitset bytes) = bytes) := by
  refine ⟨?_, ?_, ?_⟩
  · induction bytes with
    | nil => rfl
    | cons b rest ih =>
      rw [bitset_cons, List.length_append, bitsetByte_length, ih,
        List.length_cons]
      ring
  · intro c hc
    induction bytes with
    | nil => cases hc
    | cons b rest ih =>
      rw [bitset_cons, List.mem_append] at hc
      cases hc with
      | inl h =>
        rw [bitsetByte_eq] at h
        simp only [List.mem_cons, List.not_mem_nil, or_false] at h
        rcases h with h | h | h | h | h | h | h | h <;>
          (subst h; split <;> simp)
      | inr h => exact ih h
  · intro hlt
    induction bytes with
    | nil => rfl
    | cons b rest ih =>
      rw [bitset_cons, decode_bitsetByte b (hlt b (by simp))]
      rw [ih (fun x hx => hlt x (by simp [hx]))]

/-- C7 witness: round trip on a concrete two-byte input. -/
theorem c7_witness : decodeBits (bitset [5, 255]) = [5, 255] :=
  (c7_bitset_length_and_roundtrip [5, 255]).2.2 (by decide)

/-! ### isBinary (claim C8) -/

theorem countInvisible_acc (bytes : List Nat) : ∀ acc,
    bytes.foldl (fun a b => if visibleByte b then a else a + 1) acc =
      acc + bytes.foldl (fun a b => if visibleByte b then a else a + 1) 0 := by
  induction bytes with
  | nil => intro acc; simp
  | cons b rest ih =>
    intro acc
    rw [List.foldl_cons, List.foldl_cons,
      ih (if visibleByte b then acc else acc + 1),
      ih (if visibleByte b then 0 else 0 + 1)]
    cases h : visibleByte b <;> simp [h] <;> try omega

theorem countInvisible_zero {bytes : List Nat}
    (h : ∀ b ∈ bytes, visibleByte b = true) : countInvisible bytes = 0 := by
  induction bytes with
  | nil => rfl
  | cons b rest ih =>
    simp only [countInvisible, List.foldl_cons, h b (by simp)]
    exact ih (fun x hx => h x (by simp [hx]))

/-- C8: isBinary is false on empty input and on pure printable ASCII;
otherwise it is true exactly when the invisible-byte fraction (bytes not
printable ASCII, newline, tab, or one of the three escape-convention
byte values the source lists) reaches 3/10 of the length. -/
theorem c8_isBinary_spec :
    isBinary [] = false ∧
    (∀ bytes : List Nat, (∀ b ∈ bytes, 32 ≤ b ∧ b ≤ 126) →
      isBinary bytes = false) ∧
    (∀ bytes : List Nat, isBinary bytes = true ↔
      (bytes ≠ [] ∧
        (3 : ℚ) / 10 ≤ (countInvisible bytes : ℚ) / (bytes.length : ℚ))) := by
  refine ⟨rfl, ?_, ?_⟩
  · intro bytes hp
    have hz : countInvisible bytes = 0 := by
      apply countInvisible_zero
      intro b hb
      have := hp b hb
      simp [visibleByte]
      omega
    unfold isBinary
    split
    · rfl
    · rename_i hnz
      rw [hz, decide_eq_false_iff_not]
      omega
  · intro bytes
    unfold isBinary
    split
    · rename_i hz
      simp only [Bool.false_eq_true, false_iff, not_and]
      intro hne
      exact absurd (List.length_eq_zero.mp hz) hne
    · rename_i hnz
      have hlen : 0 < bytes.length := Nat.pos_of_ne_zero hnz
      have hne : bytes ≠ [] := by
        intro h
        rw [h] at hlen
        simp at hlen
      have hlenQ : (0 : ℚ) < (bytes.length : ℚ) := by exact_mod_cast hlen
      rw [decide_eq_true_eq, div_le_div_iff₀ (by norm_num) hlenQ]
      constructor
      · intro h
        refine ⟨hne, ?_⟩
        have hq : (3 : ℚ) * bytes.length ≤ 10 * countInvisible bytes := by
          exact_mod_cast h
        calc (3 : ℚ) * bytes.length ≤ 10 * countInvisible bytes := hq
          _ = (countInvisible bytes : ℚ) * 10 := by ring
      · rintro ⟨-, h⟩
        have hq : (3 : ℚ) * bytes.length ≤ 10 * countInvisible bytes := by
          calc (3 : ℚ) * bytes.length ≤ (countInvisible bytes : ℚ) * 10 := h
            _ = 10 * countInvisible bytes := by ring
        exact_mod_cast hq

/-- C8 witness: printable ASCII input is classified not binary. -/
theorem c8_witness : isBinary [104, 105] = false :=
  c8_isBinary_spec.2.1 [104, 105] (by decide)

/-! ### prettyPrint dispatch (claim C9) -/

/-- C9: prettyPrint serializes a multi-element field map or sequence
with the indenting serializer when wrapping is enabled (indent prefix
derived from the caller's prefix, unit three spaces), with the compact
serializer when the collection has at most one element or wrapping is
off, and returns a printable scalar unchanged. -/
theorem c9_prettyPrint_dispatch (marshal : RVal → GoStr)
    (marshalIndent : RVal → GoStr → GoStr → GoStr)
    (pre : GoStr) (wrap isLast : Bool) :
    (∀ m, 1 < m.length → wrap = true →
      prettyPrint marshal marshalIndent (.hash m) pre wrap isLast =
        marshalIndent (.hash m) (if isLast then pre else pre ++ bs "|") (bs "   ")) ∧
    (∀ l, 1 < l.length → wrap = true →
      prettyPrint marshal marshalIndent (.list l) pre wrap isLast =
        marshalIndent (.list l) (if isLast then pre else pre ++ bs "|") (bs "   ")) ∧
    (∀ m, m.length ≤ 1 ∨ wrap = false →
      prettyPrint marshal marshalIndent (.hash m) pre wrap isLast =
        marshal (.hash m)) ∧
    (∀ l, l.length ≤ 1 ∨ wrap = false →
      prettyPrint marshal marshalIndent (.list l) pre wrap isLast =
        marshal (.list l)) ∧
    (∀ s, isBinary s = false →
      prettyPrint marshal marshalIndent (.str s) pre wrap isLast = s) := by
  refine ⟨?_, ?_, ?_, ?_, ?_⟩
  · intro m hm hw
    subst hw
    have : decide (m.length ≤ 1) = false := by
      simp
      omega
    cases isLast <;> simp [prettyPrint, this]
  · intro l hl hw
    subst hw
    have : decide (l.length ≤ 1) = false := by
      simp
      omega
    cases isLast <;> simp [prettyPrint, this]
  · intro m hm
    cases hm with
    | inl h => simp [prettyPrint, h]
    | inr h => subst h; simp [prettyPrint]
  · intro l hl
    cases hl with
    | inl h => simp [prettyPrint, h]
    | inr h => subst h; simp [prettyPrint]
  · intro s hs
    simp [prettyPrint, hs]

/-- C9 witness: a printable scalar passes through unchanged. -/
theorem c9_witness :
    prettyPrint (fun _ => bs "J") (fun _ p u => p ++ u)
      (.str (bs "ok")) [] true true = bs "ok" :=
  (c9_prettyPrint_dispatch (fun _ => bs "J") (fun _ p u => p ++ u)
    [] true true).2.2.2.2 (bs "ok") (by decide)

/-! ### Claim C1: the key passed to the lookup collaborator

plot rebuilds the key of a leaf with a hardcoded byte ":" (newKey =
key + ":" + part in the source), while the keys were split on the
configured separator. With separator "/" the single key "a/b" produces
the leaf path a, b, whose labels joined with the separator give "a/b",
but the key passed to query is "a:b". -/

/-- C1 is violated by the code: with separator "/" and the ingested key
"a/b", the only leaf has root-to-leaf labels a, b, the spec's join with
the separator gives "a/b", yet the rendered tree passes "a:b" to the
lookup collaborator. -/
theorem c1_lookup_key_uses_hardcoded_colon :
    populate freshRoot [bs "a/b"] (bs "/") =
      .mk (bs "/") [(bs "a", .mk (bs "a") [(bs "b", .mk (bs "b") [])])] ∧
    (plot (populate freshRoot [bs "a/b"] (bs "/")) [] []).filterMap
      Line.queried = [bs "a:b"] ∧
    joinSep (bs "/") [bs "a", bs "b"] = bs "a/b" ∧
    bs "a:b" ≠ bs "a/b" := by decide

/-! ### Claim C2: ingesting the empty key or the bare separator -/

/-- C2 as stated is false: Go's strings.Split("", sep) returns one
empty segment, not zero, so ingesting the empty key creates an
empty-labelled child of the root; likewise the bare separator splits
into two empty segments and creates a two-node chain. -/
theorem c2_counterexample :
    populate freshRoot [bs ""] (bs ":") ≠ freshRoot ∧
    populate freshRoot [bs ":"] (bs ":") ≠ freshRoot := by decide

theorem goSplit_nil {sep : GoStr} (h : sep ≠ []) : goSplit [] sep = [[]] := by
  unfold goSplit splitGoF findOcc
  simp [h]

theorem isPrefixOf_self : ∀ l : GoStr, l.isPrefixOf l = true := by
  intro l
  induction l with
  | nil => rfl
  | cons a as ih => simp [List.isPrefixOf, ih]

theorem splitGoF_step (sep : GoStr) (fuel : Nat) (s : GoStr) :
    splitGoF sep (fuel + 1) s =
      match findOcc sep s with
      | none => [s]
      | some i => s.take i :: splitGoF sep fuel (s.drop (i + sep.length)) := rfl

theorem goSplit_self {sep : GoStr} (h : sep ≠ []) :
    goSplit sep sep = [[], []] := by
  unfold goSplit
  rw [if_neg h]
  cases sep with
  | nil => exact absurd rfl h
  | cons c rest =>
    have hocc : findOcc (c :: rest) (c :: rest) = some 0 := by
      unfold findOcc
      rw [isPrefixOf_self]
      simp
    have hnone : findOcc (c :: rest) [] = none := by
      unfold findOcc
      simp
    rw [splitGoF_step, hocc]
    simp only [List.take_zero, Nat.zero_add, List.drop_length]
    rw [show (c :: rest).length = rest.length + 1 from rfl]
    rw [splitGoF_step, hnone]

/-- C2 amended: ingesting an empty key is not a no-op: it creates one
empty-labelled child of the root (Go's Split yields a single empty
segment); ingesting a key equal to the separator alone creates an
empty-labelled child holding an empty-labelled child (two empty
segments). This holds for every non-empty separator. -/
theorem c2_amended_empty_key_creates_nodes (sep : GoStr) (h : sep ≠ []) :
    populate freshRoot [[]] sep = .mk (bs "/") [([], .mk [] [])] ∧
    populate freshRoot [sep] sep =
      .mk (bs "/") [([], .mk [] [([], .mk [] [])])] := by
  constructor
  · show insertPath freshRoot (goSplit [] sep) = _
    rw [goSplit_nil h]
    rfl
  · show insertPath freshRoot (goSplit sep sep) = _
    rw [goSplit_self h]
    rfl

/-- C2 witness: the amended statement at the separator ";". -/
theorem c2_witness :
    populate freshRoot [[]] (bs ";") = .mk (bs "/") [([], .mk [] [])] ∧
    populate freshRoot [bs ";"] (bs ";") =
      .mk (bs "/") [([], .mk [] [([], .mk [] [])])] :=
  c2_amended_empty_key_creates_nodes (bs ";") (by decide)

/-! ### Claim C3: leaf depth of a single ingested key -/

/-- C3 as stated is false: the key "a:" contains the separator ":" and
splits into segments a and the empty segment; the code creates both, so
the leaf sits at depth 2, but the number of non-empty segments is 1. -/
theorem c3_counterexample :
    (findOcc (bs ":") (bs "a:")).isSome = true ∧
    heightT (populate freshRoot [bs "a:"] (bs ":")) = 2 ∧
    ((goSplit (bs "a:") (bs ":")).filter (fun p => decide (p ≠ []))).length
      = 1 := by decide

theorem heightT_chain : ∀ (ps : List GoStr) (v : GoStr),
    heightT (insertPath (.mk v []) ps) = ps.length := by
  intro ps
  induction ps with
  | nil => intro v; rfl
  | cons p rest ih =>
    intro v
    show heightT (.mk v (mapSet [] p (insertPath (.mk p []) rest))) = _
    show max (1 + heightT (insertPath (.mk p []) rest)) 0 = _
    rw [ih p]
    simp [Nat.max_eq_left]
    omega

/-- C3 amended: for every key containing the (non-empty) separator,
ingesting it into an empty trie puts the leaf at depth equal to the
total number of segments Go's Split produces, empty segments included
(the count of non-empty segments can be smaller). -/
theorem c3_amended_depth_eq_split_length (k sep : GoStr) (_hsep : sep ≠ [])
    (_hocc : (findOcc sep k).isSome = true) :
    heightT (populate freshRoot [k] sep) = (goSplit k sep).length := by
  show heightT (insertPath (.mk (bs "/") []) (goSplit k sep)) = _
  exact heightT_chain (goSplit k sep) (bs "/")

/-- C3 witness: the amended statement on the key "a:b". -/
theorem c3_witness :
    heightT (populate freshRoot [bs "a:b"] (bs ":")) =
      (goSplit (bs "a:b") (bs ":")).length :=
  c3_amended_depth_eq_split_length (bs "a:b") (bs ":") (by decide) (by decide)

/-! ### Claim C6: branch glyphs and recursion rails -/

/-- C6: every line plot emits carries the glyph matching its isLast flag
(the corner glyph exactly for a last sibling, the tee glyph otherwise),
childLeading extends the current leading with four spaces after a last
sibling and with the vertical-bar rail otherwise, and one unfolding of
plot shows that exactly childLeading is what the recursive call for a
child receives. -/
theorem c6_glyphs_and_rails :
    (∀ (fuel : Nat) (node : TreeNode) (key leading : GoStr),
      ∀ l ∈ plotF fuel node key leading,
        l.glyph = if l.isLast then bs "└── " else bs "├── ") ∧
    (∀ leading : GoStr, childLeading leading true = leading ++ bs "    " ∧
      childLeading leading false = leading ++ bs "│   ") ∧
    (∀ (fuel : Nat) (node : TreeNode) (key leading : GoStr),
      plotF (fuel + 1) node key leading =
        (mapKeys node.children).enum.flatMap (fun ip =>
          plotNode ((findChild node.children ip.2).getD (.mk [] []))
              (if key = [] then ip.2 else key ++ bs ":" ++ ip.2) leading
              (ip.1 == (mapKeys node.children).length - 1) ::
            plotF fuel ((findChild node.children ip.2).getD (.mk [] []))
              (if key = [] then ip.2 else key ++ bs ":" ++ ip.2)
              (if ip.1 == (mapKeys node.children).length - 1 then
                leading ++ bs "    " else leading ++ bs "│   "))) := by
  refine ⟨?_, ?_, ?_⟩
  · intro fuel
    induction fuel with
    | zero => intro node key leading l hl; cases hl
    | succ fuel ih =>
      intro node key leading l hl
      rw [plotF] at hl
      simp only [List.mem_flatMap, List.mem_cons] at hl
      obtain ⟨ip, -, hl⟩ := hl
      cases hl with
      | inl h => subst h; rfl
      | inr h => exact ih _ _ _ l h
  · intro leading
    exact ⟨rfl, rfl⟩
  · intro fuel node key leading
    rfl

/-- C6 witness: the glyph of the single line rendered for a one-child
root is the corner glyph, by the first part of the theorem. -/
theorem c6_witness :
    (Line.mk [] (bs "└── ") (bs "a") true (some (bs "a"))).glyph =
      if (Line.mk [] (bs "└── ") (bs "a") true (some (bs "a"))).isLast
      then bs "└── " else bs "├── " :=
  c6_glyphs_and_rails.1 2 (.mk (bs "/") [(bs "a", .mk (bs "a") [])]) [] []
    (Line.mk [] (bs "└── ") (bs "a") true (some (bs "a"))) (by decide)

/-! ### Claim C10: labels agree with the map keys reaching them -/

theorem insertPath_value (t : TreeNode) (ps : List GoStr) :
    (insertPath t ps).value = t.value := by
  cases ps with
  | nil => cases t with | mk v cs => rfl
  | cons p rest =>
    cases t with
    | mk v cs =>
      rw [insertPath]
      cases findChild cs p <;> rfl

theorem labelsOkL_findChild {cs : List (GoStr × TreeNode)} {p : GoStr}
    {c : TreeNode} (hok : labelsOkL cs = true) (hf : findChild cs p = some c) :
    c.value = p ∧ labelsOk c = true := by
  induction cs with
  | nil => cases hf
  | cons q rest ih =>
    obtain ⟨l, d⟩ := q
    rw [labelsOkL, Bool.and_eq_true, Bool.and_eq_true, beq_iff_eq] at hok
    rw [findChild] at hf
    by_cases hl : l = p
    · rw [if_pos hl] at hf
      cases hf
      exact ⟨(hl ▸ hok.1.1).symm, hok.1.2⟩
    · rw [if_neg hl] at hf
      exact ih hok.2 hf

theorem labelsOkL_mapSet {cs : List (GoStr × TreeNode)} {p : GoStr}
    {c : TreeNode} (hok : labelsOkL cs = true) (hv : c.value = p)
    (hc : labelsOk c = true) : labelsOkL (mapSet cs p c) = true := by
  induction cs with
  | nil =>
    rw [mapSet, labelsOkL, labelsOkL]
    simp [hv, hc]
  | cons q rest ih =>
    obtain ⟨l, d⟩ := q
    rw [labelsOkL, Bool.and_eq_true, Bool.and_eq_true, beq_iff_eq] at hok
    rw [mapSet]
    by_cases hl : l = p
    · rw [if_pos hl, labelsOkL]
      simp [hv, hc, hok.2]
    · rw [if_neg hl, labelsOkL]
      simp [hok.1.1, hok.1.2, ih hok.2]

theorem labelsOk_insertPath {t : TreeNode} (ps : List GoStr)
    (hok : labelsOk t = true) : labelsOk (insertPath t ps) = true := by
  induction ps generalizing t with
  | nil => cases t with | mk v cs => exact hok
  | cons p rest ih =>
    cases t with
    | mk v cs =>
      rw [labelsOk] at hok
      rw [insertPath]
      cases hf : findChild cs p with
      | none =>
        rw [labelsOk]
        apply labelsOkL_mapSet hok
        · rw [insertPath_value]
          rfl
        · exact ih (by rfl)
      | some c =>
        rw [labelsOk]
        obtain ⟨hcv, hcok⟩ := labelsOkL_findChild hok hf
        apply labelsOkL_mapSet hok
        · rw [insertPath_value]
          exact hcv
        · exact ih hcok

theorem labelsOk_populate {t : TreeNode} (keys : List GoStr) (sep : GoStr)
    (hok : labelsOk t = true) : labelsOk (populate t keys sep) = true := by
  induction keys generalizing t with
  | nil => exact hok
  | cons k rest ih =>
    exact ih (labelsOk_insertPath (goSplit k sep) hok)

/-- C10: after any sequence of ingest calls starting from the fresh
root, every child bound in a children map under a key carries exactly
that key as its label, so rendering a label never disagrees with the
map key that reached the node. (Children maps are always allocated: the
embedding creates every node, the root included, with an explicit empty
children list, exactly as every construction site in the source calls
make.) -/
theorem c10_labels_match_map_keys (calls : List (List GoStr × GoStr)) :
    labelsOk (calls.foldl (fun t c => populate t c.1 c.2) freshRoot) = true := by
  have step : ∀ (t : TreeNode), labelsOk t = true →
      ∀ cs : List (List GoStr × GoStr),
      labelsOk (cs.foldl (fun t c => populate t c.1 c.2) t) = true := by
    intro t hok cs
    induction cs generalizing t with
    | nil => exact hok
    | cons c rest ih =>
      exact ih _ (labelsOk_populate c.1 c.2 hok)
  exact step freshRoot rfl calls

/-! ### Claim C5: rendering order of siblings -/

theorem findChild_mapSet_self (cs : List (GoStr × TreeNode)) (k : GoStr)
    (v : TreeNode) : findChild (mapSet cs k v) k = some v := by
  induction cs with
  | nil => simp [mapSet, findChild]
  | cons q rest ih =>
    obtain ⟨l, c⟩ := q
    rw [mapSet]
    by_cases hl : l = k
    · rw [if_pos hl, findChild, if_pos rfl]
    · rw [if_neg hl, findChild, if_neg hl]
      exact ih

theorem findChild_mapSet_ne {cs : List (GoStr × TreeNode)} {k l : GoStr}
    (v : TreeNode) (h : l ≠ k) :
    findChild (mapSet cs k v) l = findChild cs l := by
  induction cs with
  | nil =>
    have hkl : ¬ k = l := fun hh => h hh.symm
    simp [mapSet, findChild, hkl]
  | cons q rest ih =>
    obtain ⟨m, c⟩ := q
    rw [mapSet]
    by_cases hm : m = k
    · subst hm
      rw [if_pos rfl, findChild, findChild,
        if_neg (fun hh => h hh.symm), if_neg (fun hh => h hh.symm)]
    · rw [if_neg hm, findChild, findChild]
      by_cases hml : m = l
      · rw [if_pos hml, if_pos hml]
      · rw [if_neg hml, if_neg hml]
        exact ih

theorem wfL_findChild {cs : List (GoStr × TreeNode)} {p : GoStr}
    {c : TreeNode} (hok : wfL cs = true) (hf : findChild cs p = some c) :
    wfT c = true := by
  induction cs with
  | nil => cases hf
  | cons q rest ih =>
    obtain ⟨l, d⟩ := q
    rw [wfL, Bool.and_eq_true, Bool.and_eq_true] at hok
    rw [findChild] at hf
    by_cases hl : l = p
    · rw [if_pos hl] at hf
      cases hf
      exact hok.1.2
    · rw [if_neg hl] at hf
      exact ih hok.2 hf

theorem wfL_mapSet {cs : List (GoStr × TreeNode)} {p : GoStr} {x : TreeNode}
    (hok : wfL cs = true) (hx : wfT x = true) :
    wfL (mapSet cs p x) = true := by
  induction cs with
  | nil =>
    rw [mapSet, wfL, wfL]
    simp [findChild, hx]
  | cons q rest ih =>
    obtain ⟨l, c⟩ := q
    rw [wfL, Bool.and_eq_true, Bool.and_eq_true] at hok
    rw [mapSet]
    by_cases hl : l = p
    · subst hl
      rw [if_pos rfl, wfL]
      simp only [Bool.and_eq_true]
      exact ⟨⟨hok.1.1, hx⟩, hok.2⟩
    · rw [if_neg hl, wfL]
      simp only [Bool.and_eq_true]
      refine ⟨⟨?_, hok.1.2⟩, ih hok.2⟩
      rw [findChild_mapSet_ne x hl]
      exact hok.1.1

theorem wfT_insertPath {t : TreeNode} (ps : List GoStr)
    (hok : wfT t = true) : wfT (insertPath t ps) = true := by
  induction ps generalizing t with
  | nil => cases t with | mk v cs => exact hok
  | cons p rest ih =>
    cases t with
    | mk v cs =>
      rw [wfT] at hok
      rw [insertPath]
      cases hf : findChild cs p with
      | none =>
        rw [wfT]
        exact wfL_mapSet hok (ih (by rfl))
      | some c =>
        rw [wfT]
        exact wfL_mapSet hok (ih (wfL_findChild hok hf))

theorem wfT_populate (keys : List GoStr) (sep : GoStr) :
    wfT (populate freshRoot keys sep) = true := by
  have step : ∀ (t : TreeNode), wfT t = true →
      wfT (populate t keys sep) = true := by
    intro t
    induction keys generalizing t with
    | nil => exact fun h => h
    | cons k rest ih =>
      intro hok
      exact ih _ (wfT_insertPath (goSplit k sep) hok)
  exact step freshRoot rfl

theorem subNodesL_mem {n : TreeNode} : ∀ {cs : List (GoStr × TreeNode)},
    n ∈ subNodesL cs → ∃ p ∈ cs, n ∈ subNodes p.2 := by
  intro cs
  induction cs with
  | nil => intro h; cases h
  | cons q rest ih =>
    intro h
    rw [subNodesL, List.mem_append] at h
    cases h with
    | inl h => exact ⟨q, by simp, h⟩
    | inr h =>
      obtain ⟨p, hp, hn⟩ := ih h
      exact ⟨p, by simp [hp], hn⟩

theorem wfL_mem {cs : List (GoStr × TreeNode)} {p : GoStr × TreeNode}
    (hok : wfL cs = true) (hp : p ∈ cs) : wfT p.2 = true := by
  induction cs with
  | nil => cases hp
  | cons q rest ihr =>
    rw [wfL, Bool.and_eq_true, Bool.and_eq_true] at hok
    cases hp with
    | head => exact hok.1.2
    | tail _ hmem => exact ihr hok.2 hmem

theorem wfT_subNodes : ∀ t : TreeNode, wfT t = true →
    ∀ n ∈ subNodes t, wfT n = true := by
  intro t
  induction t using treeInd with
  | _ v cs ih =>
    intro hok n hn
    rw [subNodes, List.mem_cons] at hn
    cases hn with
    | inl h => exact h ▸ hok
    | inr h =>
      obtain ⟨p, hp, hn⟩ := subNodesL_mem h
      rw [wfT] at hok
      exact ih p hp (wfL_mem hok hp) n hn

theorem findChild_none_iff {cs : List (GoStr × TreeNode)} {k : GoStr} :
    findChild cs k = none ↔ k ∉ cs.map Prod.fst := by
  induction cs with
  | nil => simp [findChild]
  | cons q rest ih =>
    obtain ⟨l, c⟩ := q
    rw [findChild]
    by_cases hl : l = k
    · subst hl
      simp
    · rw [if_neg hl]
      have hkl : ¬ k = l := fun hh => hl hh.symm
      simp [ih, hkl]

theorem wfL_nodup_keys {cs : List (GoStr × TreeNode)} (hok : wfL cs = true) :
    (cs.map Prod.fst).Nodup := by
  induction cs with
  | nil => simp
  | cons q rest ih =>
    obtain ⟨l, c⟩ := q
    rw [wfL, Bool.and_eq_true, Bool.and_eq_true] at hok
    rw [List.map_cons, List.nodup_cons]
    refine ⟨?_, ih hok.2⟩
    have : findChild rest l = none := by
      cases hf : findChild rest l with
      | none => rfl
      | some c =>
        have := hok.1.1
        rw [hf] at this
        simp at this
    exact findChild_none_iff.mp this

theorem mapKeys_perm (cs : List (GoStr × TreeNode)) :
    List.Perm (mapKeys cs) (cs.map Prod.fst) :=
  List.perm_insertionSort bleP (cs.map Prod.fst)

theorem mapKeys_sorted (cs : List (GoStr × TreeNode)) :
    List.Sorted bleP (mapKeys cs) :=
  List.sorted_insertionSort bleP (cs.map Prod.fst)

theorem mapKeys_pairwise_lt {cs : List (GoStr × TreeNode)}
    (hok : wfL cs = true) : List.Pairwise bltP (mapKeys cs) := by
  have hnd : (mapKeys cs).Nodup :=
    ((mapKeys_perm cs).nodup_iff).mpr (wfL_nodup_keys hok)
  exact (mapKeys_sorted cs).imp₂ (fun a b hle hne => bltP_of_bleP_ne hle hne) hnd

theorem getLastD_mem : ∀ (xs : List GoStr) (x : GoStr),
    (x :: xs).getLast?.getD [] ∈ x :: xs := by
  intro xs
  induction xs with
  | nil => intro x; simp
  | cons y rest ih =>
    intro x
    rw [List.getLast?_cons_cons]
    exact List.mem_cons_of_mem x (ih y)

theorem pairwise_le_getLast : ∀ (l : List GoStr), List.Pairwise bleP l →
    ∀ p ∈ l, bleP p (l.getLast?.getD []) := by
  intro l
  induction l with
  | nil => intro _ p hp; cases hp
  | cons x xs ih =>
    intro hpw p hp
    rw [List.pairwise_cons] at hpw
    cases xs with
    | nil =>
      rw [List.mem_singleton] at hp
      subst hp
      exact bytesLt_irrefl p
    | cons y rest =>
      rw [List.getLast?_cons_cons]
      rw [List.mem_cons] at hp
      cases hp with
      | inl h =>
        subst h
        exact hpw.1 _ (getLastD_mem rest y)
      | inr h => exact ih hpw.2 p h

theorem enumFrom_lastFlag : ∀ (l : List GoStr) (n k : Nat), l ≠ [] →
    k = n + l.length - 1 →
    ((l.enumFrom n).map (fun ip => (ip.2, ip.1 == k))).filter (fun e => e.2)
      = [(l.getLast?.getD [], true)] := by
  intro l
  induction l with
  | nil => intro n k h; exact absurd rfl h
  | cons x xs ih =>
    intro n k _ hk
    cases xs with
    | nil =>
      subst hk
      simp
    | cons y rest =>
      have hne : (n == k) = false := by
        rw [beq_eq_false_iff_ne]
        subst hk
        simp only [List.length_cons]
        omega
      rw [List.enumFrom_cons, List.map_cons, List.filter_cons]
      simp only [hne]
      rw [List.getLast?_cons_cons]
      exact ih (n + 1) k (by simp) (by subst hk; simp only [List.length_cons]; omega)

theorem siblingOrder_fst (t : TreeNode) :
    (siblingOrder t).map Prod.fst = mapKeys t.children := by
  rw [siblingOrder, List.map_map]
  exact List.enum_map_snd (mapKeys t.children)

theorem siblingOrder_filter {t : TreeNode} (h : mapKeys t.children ≠ []) :
    (siblingOrder t).filter (fun e => e.2)
      = [((mapKeys t.children).getLast?.getD [], true)] := by
  rw [siblingOrder]
  exact enumFrom_lastFlag (mapKeys t.children) 0
    ((mapKeys t.children).length - 1) h (by omega)

/-- C5: in every trie built by populate from the fresh root, whatever
the key order, each node's children are visited in strictly ascending
byte-lexicographic label order, and exactly one sibling of a non-empty
level carries isLast = true, namely the one with the greatest label. -/
theorem c5_siblings_sorted_and_unique_last (keys : List GoStr) (sep : GoStr)
    (n : TreeNode) (hn : n ∈ subNodes (populate freshRoot keys sep)) :
    List.Pairwise bltP ((siblingOrder n).map Prod.fst) ∧
    (n.children ≠ [] → ∃ m,
      (siblingOrder n).filter (fun e => e.2) = [(m, true)] ∧
      ∀ p ∈ (siblingOrder n).map Prod.fst, bleP p m) := by
  have hwf : wfT n = true :=
    wfT_subNodes (populate freshRoot keys sep) (wfT_populate keys sep) n hn
  have hwfl : wfL n.children = true := by
    cases n with | mk v cs => exact hwf
  rw [siblingOrder_fst]
  refine ⟨mapKeys_pairwise_lt hwfl, ?_⟩
  intro hne
  have hmk : mapKeys n.children ≠ [] := by
    intro h
    apply hne
    have hlen := (mapKeys_perm n.children).length_eq
    rw [h] at hlen
    simp only [List.length_nil, List.length_map] at hlen
    exact List.length_eq_zero.mp hlen.symm
  refine ⟨(mapKeys n.children).getLast?.getD [], siblingOrder_filter hmk, ?_⟩
  intro p hp
  exact pairwise_le_getLast (mapKeys n.children) (mapKeys_sorted n.children) p hp

/-- C5 witness: the sorted sibling order of a concrete two-key trie. -/
theorem c5_witness :
    List.Pairwise bltP
      ((siblingOrder (populate freshRoot [bs "b", bs "a"] (bs ":"))).map
        Prod.fst) ∧
    ((populate freshRoot [bs "b", bs "a"] (bs ":")).children ≠ [] → ∃ m,
      (siblingOrder (populate freshRoot [bs "b", bs "a"] (bs ":"))).filter
        (fun e => e.2) = [(m, true)] ∧
      ∀ p ∈ (siblingOrder (populate freshRoot [bs "b", bs "a"] (bs ":"))).map
        Prod.fst, bleP p m) :=
  c5_siblings_sorted_and_unique_last [bs "b", bs "a"] (bs ":") _ (by decide)

/-! ### Claim C4: order-invariance of trie construction

canon sorts every children list by label, recursively: two trees are
equal under label-based structural comparison (the map view of the
children, ignoring insertion order) exactly when their canonical forms
are equal. The proof shows that insertPath commutes with itself up to
canon, by relating it to cinsert, its sorted-insertion counterpart. -/

theorem bytesLt_cases {a b : GoStr} (h : a ≠ b) :
    (bytesLt a b = true ∧ bytesLt b a = false) ∨
    (bytesLt a b = false ∧ bytesLt b a = true) := by
  cases hab : bytesLt a b with
  | true => exact Or.inl ⟨rfl, bytesLt_asymm hab⟩
  | false =>
    cases hba : bytesLt b a with
    | true => exact Or.inr ⟨rfl, rfl⟩
    | false => exact absurd (bytesLt_connex hab hba) h

theorem insPair_comm {e f : GoStr × TreeNode} (h : e.1 ≠ f.1) :
    ∀ l, insPair e (insPair f l) = insPair f (insPair e l) := by
  intro l
  induction l with
  | nil =>
    rcases bytesLt_cases h with ⟨h1, h2⟩ | ⟨h1, h2⟩ <;>
      simp [insPair, h1, h2]
  | cons g gs ih =>
    by_cases heg : bytesLt e.1 g.1 = true
    · by_cases hfg : bytesLt f.1 g.1 = true
      · rcases bytesLt_cases h with ⟨h1, h2⟩ | ⟨h1, h2⟩ <;>
          simp [insPair, heg, hfg, h1, h2]
      · rw [Bool.not_eq_true] at hfg
        have hfe : bytesLt f.1 e.1 = false := by
          cases hc : bytesLt f.1 e.1 with
          | false => rfl
          | true =>
            have ht := bytesLt_trans hc heg
            rw [ht] at hfg
            simp at hfg
        simp [insPair, heg, hfg, hfe]
    · rw [Bool.not_eq_true] at heg
      by_cases hfg : bytesLt f.1 g.1 = true
      · have hef : bytesLt e.1 f.1 = false := by
          cases hc : bytesLt e.1 f.1 with
          | false => rfl
          | true =>
            have ht := bytesLt_trans hc hfg
            rw [ht] at heg
            simp at heg
        simp [insPair, heg, hfg, hef]
      · rw [Bool.not_eq_true] at hfg
        simp [insPair, heg, hfg, ih]

theorem findChild_insPair_self {l : List (GoStr × TreeNode)} {p : GoStr}
    (x : TreeNode) (h : findChild l p = none) :
    findChild (insPair (p, x) l) p = some x := by
  induction l with
  | nil => simp [insPair, findChild]
  | cons f fs ih =>
    obtain ⟨m, c⟩ := f
    rw [findChild] at h
    by_cases hm : m = p
    · rw [if_pos hm] at h
      cases h
    · rw [if_neg hm] at h
      by_cases hlt : bytesLt p m = true
      · simp [insPair, hlt, findChild]
      · rw [Bool.not_eq_true] at hlt
        simp [insPair, hlt, findChild, hm, ih h]

theorem findChild_insPair_ne {p q : GoStr} (x : TreeNode) (h : q ≠ p) :
    ∀ l, findChild (insPair (p, x) l) q = findChild l q := by
  intro l
  have hqp : ¬ p = q := fun hh => h hh.symm
  induction l with
  | nil => simp [insPair, findChild, hqp]
  | cons f fs ih =>
    obtain ⟨m, c⟩ := f
    by_cases hlt : bytesLt p m = true
    · simp [insPair, hlt, findChild, hqp]
    · rw [Bool.not_eq_true] at hlt
      by_cases hm : m = q
      · subst hm
        simp [insPair, hlt, findChild]
      · simp [insPair, hlt, findChild, hm, ih]

theorem mapSet_insPair_self {l : List (GoStr × TreeNode)} {p : GoStr}
    (x y : TreeNode) (h : findChild l p = none) :
    mapSet (insPair (p, x) l) p y = insPair (p, y) l := by
  induction l with
  | nil => simp [insPair, mapSet]
  | cons f fs ih =>
    obtain ⟨m, c⟩ := f
    rw [findChild] at h
    by_cases hm : m = p
    · rw [if_pos hm] at h
      cases h
    · rw [if_neg hm] at h
      by_cases hlt : bytesLt p m = true
      · simp [insPair, hlt, mapSet, hm]
      · rw [Bool.not_eq_true] at hlt
        simp [insPair, hlt, mapSet, hm, ih h]

theorem mapSet_insPair_ne {p q : GoStr} (x y : TreeNode) (h : p ≠ q) :
    ∀ {l : List (GoStr × TreeNode)} {d : TreeNode},
      findChild l q = some d →
      mapSet (insPair (p, x) l) q y = insPair (p, x) (mapSet l q y) := by
  intro l
  induction l with
  | nil => intro d hq; cases hq
  | cons f fs ih =>
    intro d hq
    obtain ⟨m, c⟩ := f
    rw [findChild] at hq
    by_cases hm : m = q
    · subst hm
      by_cases hlt : bytesLt p m = true
      · simp [insPair, mapSet, hlt, h]
      · rw [Bool.not_eq_true] at hlt
        simp [insPair, mapSet, hlt, h]
    · rw [if_neg hm] at hq
      by_cases hlt : bytesLt p m = true
      · simp [insPair, mapSet, hlt, h, hm]
      · rw [Bool.not_eq_true] at hlt
        simp [insPair, mapSet, hlt, h, hm, ih hq]

theorem mapSet_mapSet_self (l : List (GoStr × TreeNode)) (p : GoStr)
    (x y : TreeNode) : mapSet (mapSet l p x) p y = mapSet l p y := by
  induction l with
  | nil => simp [mapSet]
  | cons f fs ih =>
    obtain ⟨m, c⟩ := f
    by_cases hm : m = p
    · subst hm
      simp [mapSet]
    · simp [mapSet, hm, ih]

theorem mapSet_mapSet_ne {p q : GoStr} (h : p ≠ q) (x y : TreeNode) :
    ∀ {l : List (GoStr × TreeNode)} {cp cq : TreeNode},
      findChild l p = some cp → findChild l q = some cq →
      mapSet (mapSet l p x) q y = mapSet (mapSet l q y) p x := by
  intro l
  induction l with
  | nil => intro cp cq hp _; cases hp
  | cons f fs ih =>
    intro cp cq hp hq
    obtain ⟨m, c⟩ := f
    rw [findChild] at hp hq
    by_cases hmp : m = p
    · subst hmp
      have hqp := Ne.symm h
      simp [mapSet, h, hqp]
    · by_cases hmq : m = q
      · subst hmq
        have hqp := Ne.symm h
        simp [mapSet, h, hmp, hqp]
      · rw [if_neg hmp] at hp
        rw [if_neg hmq] at hq
        simp [mapSet, hmp, hmq, ih hp hq]

theorem mapSet_absent {cs : List (GoStr × TreeNode)} {p : GoStr}
    (x : TreeNode) (h : findChild cs p = none) :
    mapSet cs p x = cs ++ [(p, x)] := by
  induction cs with
  | nil => rfl
  | cons f fs ih =>
    obtain ⟨m, c⟩ := f
    rw [findChild] at h
    by_cases hm : m = p
    · rw [if_pos hm] at h
      cases h
    · rw [if_neg hm] at h
      simp [mapSet, hm, ih h]

theorem mapSet_findChild_self {cs : List (GoStr × TreeNode)} {p : GoStr}
    {c : TreeNode} (h : findChild cs p = some c) : mapSet cs p c = cs := by
  induction cs with
  | nil => cases h
  | cons f fs ih =>
    obtain ⟨m, d⟩ := f
    rw [findChild] at h
    by_cases hm : m = p
    · rw [if_pos hm] at h
      injection h with h2
      subst h2
      subst hm
      simp [mapSet]
    · rw [if_neg hm] at h
      simp [mapSet, hm, ih h]

theorem canon_fresh (p : GoStr) : canon (.mk p []) = .mk p [] := rfl

theorem insertPath_cons (v : GoStr) (cs : List (GoStr × TreeNode))
    (p : GoStr) (ps : List GoStr) :
    insertPath (.mk v cs) (p :: ps) =
      match findChild cs p with
      | none => .mk v (mapSet cs p (insertPath (.mk p []) ps))
      | some c => .mk v (mapSet cs p (insertPath c ps)) := rfl

theorem cinsert_nil (t : TreeNode) : cinsert t [] = t := by
  cases t
  rfl

theorem cinsert_cons (v : GoStr) (cs : List (GoStr × TreeNode))
    (p : GoStr) (ps : List GoStr) :
    cinsert (.mk v cs) (p :: ps) =
      match findChild cs p with
      | none => .mk v (insPair (p, cinsert (.mk p []) ps) cs)
      | some c => .mk v (mapSet cs p (cinsert c ps)) := rfl

theorem keys_insPair_perm (e : GoStr × TreeNode) :
    ∀ l : List (GoStr × TreeNode),
      List.Perm ((insPair e l).map Prod.fst) (e.1 :: l.map Prod.fst) := by
  intro l
  induction l with
  | nil => simp [insPair]
  | cons f fs ih =>
    by_cases hlt : bytesLt e.1 f.1 = true
    · simp [insPair, hlt]
    · rw [Bool.not_eq_true] at hlt
      rw [insPair, hlt]
      simp only [Bool.false_eq_true, if_false, List.map_cons]
      exact (ih.cons f.1).trans (List.Perm.swap e.1 f.1 (fs.map Prod.fst))

theorem keys_canonList_perm : ∀ cs : List (GoStr × TreeNode),
    List.Perm ((canonList cs).map Prod.fst) (cs.map Prod.fst) := by
  intro cs
  induction cs with
  | nil => simp [canonList]
  | cons f fs ih =>
    obtain ⟨l, c⟩ := f
    rw [canonList]
    exact (keys_insPair_perm (l, canon c) (canonList fs)).trans (ih.cons l)

theorem findChild_canonList {cs : List (GoStr × TreeNode)}
    (hok : wfL cs = true) :
    ∀ p, findChild (canonList cs) p = Option.map canon (findChild cs p) := by
  induction cs with
  | nil => intro p; simp [canonList, findChild]
  | cons f fs ih =>
    intro p
    obtain ⟨l, c⟩ := f
    rw [wfL, Bool.and_eq_true, Bool.and_eq_true] at hok
    have hlnone : findChild fs l = none := by
      cases hf : findChild fs l with
      | none => rfl
      | some d =>
        have := hok.1.1
        rw [hf] at this
        simp at this
    have hlnone2 : findChild (canonList fs) l = none := by
      rw [findChild_none_iff]
      intro hmem
      exact findChild_none_iff.mp hlnone
        ((keys_canonList_perm fs).mem_iff.mp hmem)
    rw [canonList]
    by_cases hp : p = l
    · subst hp
      rw [findChild_insPair_self (canon c) hlnone2, findChild, if_pos rfl]
      rfl
    · rw [findChild_insPair_ne (canon c) hp, findChild,
        if_neg (fun hh => hp hh.symm), ih hok.2]

theorem canonList_append_absent {cs : List (GoStr × TreeNode)} {p : GoStr}
    (x : TreeNode) (h : findChild cs p = none) :
    canonList (cs ++ [(p, x)]) = insPair (p, canon x) (canonList cs) := by
  induction cs with
  | nil => simp [canonList, insPair]
  | cons f fs ih =>
    obtain ⟨l, c⟩ := f
    rw [findChild] at h
    by_cases hl : l = p
    · rw [if_pos hl] at h
      cases h
    · rw [if_neg hl] at h
      rw [List.cons_append, canonList, canonList, ih h]
      exact @insPair_comm (l, canon c) (p, canon x) hl (canonList fs)

theorem canonList_mapSet {cs : List (GoStr × TreeNode)} {p : GoStr}
    {d : TreeNode} (y : TreeNode) (hok : wfL cs = true)
    (hf : findChild cs p = some d) :
    canonList (mapSet cs p y) = mapSet (canonList cs) p (canon y) := by
  induction cs with
  | nil => cases hf
  | cons f fs ih =>
    obtain ⟨l, c⟩ := f
    rw [wfL, Bool.and_eq_true, Bool.and_eq_true] at hok
    have hlnone : findChild fs l = none := by
      cases hff : findChild fs l with
      | none => rfl
      | some e =>
        have := hok.1.1
        rw [hff] at this
        simp at this
    have hlnone2 : findChild (canonList fs) l = none := by
      rw [findChild_none_iff]
      intro hmem
      exact findChild_none_iff.mp hlnone
        ((keys_canonList_perm fs).mem_iff.mp hmem)
    rw [findChild] at hf
    by_cases hl : l = p
    · subst hl
      rw [mapSet, if_pos rfl, canonList, canonList,
        mapSet_insPair_self (canon c) (canon y) hlnone2]
    · rw [if_neg hl] at hf
      have hpres : findChild (canonList fs) p = some (canon d) := by
        rw [findChild_canonList hok.2, hf]
        rfl
      rw [mapSet, if_neg hl, canonList, canonList, ih hok.2 hf,
        mapSet_insPair_ne (canon c) (canon y) hl hpres]

theorem canon_insertPath {t : TreeNode} (ps : List GoStr)
    (hok : wfT t = true) : canon (insertPath t ps) = cinsert (canon t) ps := by
  induction ps generalizing t with
  | nil =>
    cases t with
    | mk v cs =>
      rw [cinsert_nil]
      rfl
  | cons p ps ih =>
    cases t with
    | mk v cs =>
      rw [wfT] at hok
      rw [insertPath_cons, canon, cinsert_cons, findChild_canonList hok]
      cases hf : findChild cs p with
      | none =>
        rw [canon, mapSet_absent _ hf, canonList_append_absent _ hf,
          ih (by rfl), canon_fresh]
        rfl
      | some c =>
        rw [canon, canonList_mapSet _ hok hf, ih (wfL_findChild hok hf)]
        rfl

theorem cinsert_cons_none {v : GoStr} {cs : List (GoStr × TreeNode)}
    {p : GoStr} (ps : List GoStr) (h : findChild cs p = none) :
    cinsert (.mk v cs) (p :: ps) =
      .mk v (insPair (p, cinsert (.mk p []) ps) cs) := by
  rw [cinsert_cons, h]

theorem cinsert_cons_some {v : GoStr} {cs : List (GoStr × TreeNode)}
    {p : GoStr} {c : TreeNode} (ps : List GoStr)
    (h : findChild cs p = some c) :
    cinsert (.mk v cs) (p :: ps) = .mk v (mapSet cs p (cinsert c ps)) := by
  rw [cinsert_cons, h]

theorem cinsert_comm : ∀ (a b : List GoStr) (t : TreeNode),
    cinsert (cinsert t a) b = cinsert (cinsert t b) a := by
  intro a
  induction a with
  | nil =>
    intro b t
    rw [cinsert_nil t, cinsert_nil (cinsert t b)]
  | cons p ps ih =>
    intro b t
    cases b with
    | nil => rw [cinsert_nil t, cinsert_nil (cinsert t (p :: ps))]
    | cons q qs =>
      cases t with
      | mk v cs =>
        by_cases hpq : p = q
        · subst hpq
          cases hf : findChild cs p with
          | none =>
            rw [cinsert_cons_none ps hf, cinsert_cons_none qs hf,
              cinsert_cons_some qs (findChild_insPair_self _ hf),
              cinsert_cons_some ps (findChild_insPair_self _ hf),
              mapSet_insPair_self _ _ hf, mapSet_insPair_self _ _ hf,
              ih qs (.mk p [])]
          | some c =>
            rw [cinsert_cons_some ps hf, cinsert_cons_some qs hf,
              cinsert_cons_some qs (findChild_mapSet_self cs p _),
              cinsert_cons_some ps (findChild_mapSet_self cs p _),
              mapSet_mapSet_self, mapSet_mapSet_self, ih qs c]
        · have hqp : q ≠ p := fun hh => hpq hh.symm
          cases hfp : findChild cs p with
          | none =>
            cases hfq : findChild cs q with
            | none =>
              rw [cinsert_cons_none ps hfp, cinsert_cons_none qs hfq,
                cinsert_cons_none qs
                  (by rw [findChild_insPair_ne _ hqp]; exact hfq),
                cinsert_cons_none ps
                  (by rw [findChild_insPair_ne _ hpq]; exact hfp)]
              rw [@insPair_comm (q, cinsert (.mk q []) qs)
                (p, cinsert (.mk p []) ps) hqp cs]
            | some d =>
              rw [cinsert_cons_none ps hfp, cinsert_cons_some qs hfq,
                cinsert_cons_some qs
                  (by rw [findChild_insPair_ne _ hqp]; exact hfq),
                cinsert_cons_none ps
                  (by rw [findChild_mapSet_ne _ hpq]; exact hfp),
                mapSet_insPair_ne _ _ hpq hfq]
          | some c =>
            cases hfq : findChild cs q with
            | none =>
              rw [cinsert_cons_some ps hfp, cinsert_cons_none qs hfq,
                cinsert_cons_none qs
                  (by rw [findChild_mapSet_ne _ hqp]; exact hfq),
                cinsert_cons_some ps
                  (by rw [findChild_insPair_ne _ hpq]; exact hfp),
                mapSet_insPair_ne _ _ hqp hfp]
            | some d =>
              rw [cinsert_cons_some ps hfp, cinsert_cons_some qs hfq,
                cinsert_cons_some qs
                  (by rw [findChild_mapSet_ne _ hqp]; exact hfq),
                cinsert_cons_some ps
                  (by rw [findChild_mapSet_ne _ hpq]; exact hfp),
                mapSet_mapSet_ne hpq _ _ hfp hfq]

theorem populate_nil (t : TreeNode) (sep : GoStr) : populate t [] sep = t := rfl

theorem populate_cons (t : TreeNode) (k : GoStr) (rest : List GoStr)
    (sep : GoStr) : populate t (k :: rest) sep =
      populate (insertPath t (goSplit k sep)) rest sep := rfl

theorem populate_append (t : TreeNode) (l1 l2 : List GoStr) (sep : GoStr) :
    populate t (l1 ++ l2) sep = populate (populate t l1 sep) l2 sep := by
  unfold populate
  exact List.foldl_append _ _ l1 l2

theorem canon_populate_cong {t1 t2 : TreeNode} (keys : List GoStr)
    (sep : GoStr) (h1 : wfT t1 = true) (h2 : wfT t2 = true)
    (hc : canon t1 = canon t2) :
    canon (populate t1 keys sep) = canon (populate t2 keys sep) := by
  induction keys generalizing t1 t2 with
  | nil => exact hc
  | cons k rest ih =>
    rw [populate_cons, populate_cons]
    apply ih (wfT_insertPath _ h1) (wfT_insertPath _ h2)
    rw [canon_insertPath _ h1, canon_insertPath _ h2, hc]

theorem canon_populate_perm {keys1 keys2 : List GoStr}
    (hperm : List.Perm keys1 keys2) (sep : GoStr) :
    ∀ t, wfT t = true →
      canon (populate t keys1 sep) = canon (populate t keys2 sep) := by
  induction hperm with
  | nil => intro t _; rfl
  | cons x _h ih =>
    intro t ht
    exact ih (insertPath t (goSplit x sep)) (wfT_insertPath _ ht)
  | swap x y l =>
    intro t ht
    rw [populate_cons, populate_cons, populate_cons, populate_cons]
    apply canon_populate_cong l sep
      (wfT_insertPath _ (wfT_insertPath _ ht))
      (wfT_insertPath _ (wfT_insertPath _ ht))
    rw [canon_insertPath _ (wfT_insertPath _ ht), canon_insertPath _ ht,
      canon_insertPath _ (wfT_insertPath _ ht), canon_insertPath _ ht,
      cinsert_comm]
  | trans _h1 _h2 ih1 ih2 =>
    intro t ht
    exact (ih1 t ht).trans (ih2 t ht)

theorem children_mk (v : GoStr) (cs : List (GoStr × TreeNode)) :
    (TreeNode.mk v cs).children = cs := rfl

theorem pathMem_cons (t : TreeNode) (p : GoStr) (ps : List GoStr) :
    pathMem t (p :: ps) =
      match findChild t.children p with
      | none => false
      | some c => pathMem c ps := rfl

theorem pathMem_insertPath_self : ∀ (ps : List GoStr) (t : TreeNode),
    pathMem (insertPath t ps) ps = true := by
  intro ps
  induction ps with
  | nil => intro t; rfl
  | cons p rest ihp =>
    intro t
    cases t with
    | mk v cs =>
      cases hf : findChild cs p with
      | none =>
        simp only [insertPath_cons, hf, pathMem_cons, children_mk,
          findChild_mapSet_self]
        exact ihp (.mk p [])
      | some c =>
        simp only [insertPath_cons, hf, pathMem_cons, children_mk,
          findChild_mapSet_self]
        exact ihp c

theorem pathMem_insertPath_mono : ∀ (ps : List GoStr) (t : TreeNode)
    (qs : List GoStr), pathMem t ps = true →
    pathMem (insertPath t qs) ps = true := by
  intro ps
  induction ps with
  | nil => intro t qs _; cases insertPath t qs; rfl
  | cons p pr ihp =>
    intro t qs h
    cases t with
    | mk v cs =>
      rw [pathMem_cons, children_mk] at h
      cases hc : findChild cs p with
      | none => rw [hc] at h; cases h
      | some c =>
        rw [hc] at h
        cases qs with
        | nil =>
          rw [show insertPath (TreeNode.mk v cs) [] = TreeNode.mk v cs from rfl,
            pathMem_cons, children_mk, hc]
          exact h
        | cons q qr =>
          by_cases hpq : p = q
          · subst hpq
            cases hfq : findChild cs p with
            | none => rw [hfq] at hc; cases hc
            | some d =>
              rw [hfq] at hc
              injection hc with hcd
              subst hcd
              simp only [insertPath_cons, hfq, pathMem_cons, children_mk,
                findChild_mapSet_self]
              exact ihp _ qr h
          · cases hfq : findChild cs q with
            | none =>
              simp only [insertPath_cons, hfq, pathMem_cons, children_mk]
              rw [findChild_mapSet_ne _ hpq, hc]
              exact h
            | some d =>
              simp only [insertPath_cons, hfq, pathMem_cons, children_mk]
              rw [findChild_mapSet_ne _ hpq, hc]
              exact h

theorem insertPath_of_pathMem : ∀ (ps : List GoStr) (t : TreeNode),
    pathMem t ps = true → insertPath t ps = t := by
  intro ps
  induction ps with
  | nil => intro t _; cases t; rfl
  | cons p pr ihp =>
    intro t h
    cases t with
    | mk v cs =>
      rw [pathMem_cons, children_mk] at h
      cases hc : findChild cs p with
      | none => rw [hc] at h; cases h
      | some c =>
        rw [hc] at h
        simp only [insertPath_cons, hc]
        rw [ihp c h, mapSet_findChild_self hc]

theorem pathMem_populate (sep : GoStr) : ∀ (keys : List GoStr)
    (t : TreeNode) (ps : List GoStr), pathMem t ps = true →
    pathMem (populate t keys sep) ps = true := by
  intro keys
  induction keys with
  | nil => intro t ps h; exact h
  | cons k rest ih =>
    intro t ps h
    rw [populate_cons]
    exact ih _ ps (pathMem_insertPath_mono ps t (goSplit k sep) h)

theorem populate_mem_pathMem (sep : GoStr) : ∀ (keys : List GoStr)
    (t : TreeNode) (k : GoStr), k ∈ keys →
    pathMem (populate t keys sep) (goSplit k sep) = true := by
  intro keys
  induction keys with
  | nil => intro t k hk; cases hk
  | cons h rest ih =>
    intro t k hk
    rw [populate_cons]
    cases hk with
    | head =>
      exact pathMem_populate sep rest _ _ (pathMem_insertPath_self _ t)
    | tail _ hmem => exact ih _ k hmem

/-- C4: ingesting any permutation of a non-empty key list into the
fresh root yields the same trie under label-based structural comparison
(canon sorts every children list by label recursively, so equality of
canonical forms is equality of the label-keyed map structure), and
re-ingesting a key that was already ingested leaves the trie literally
unchanged. -/
theorem c4_permutation_invariance (keys1 keys2 : List GoStr) (sep : GoStr)
    (_hne : keys1 ≠ []) (hperm : List.Perm keys1 keys2) :
    canon (populate freshRoot keys1 sep) =
      canon (populate freshRoot keys2 sep) ∧
    (∀ (keys : List GoStr) (k : GoStr), k ∈ keys →
      populate freshRoot (keys ++ [k]) sep = populate freshRoot keys sep) := by
  constructor
  · exact canon_populate_perm hperm sep freshRoot rfl
  · intro keys k hk
    rw [populate_append]
    exact insertPath_of_pathMem _ _ (populate_mem_pathMem sep keys freshRoot k hk)

/-- C4 witness: the two orders of a concrete two-key list give
canonically equal tries. -/
theorem c4_witness :
    canon (populate freshRoot [bs "a:1", bs "b"] (bs ":")) =
      canon (populate freshRoot [bs "b", bs "a:1"] (bs ":")) :=
  (c4_permutation_invariance [bs "a:1", bs "b"] [bs "b", bs "a:1"] (bs ":")
    (by decide) (List.Perm.swap (bs "b") (bs "a:1") [])).1

end RedisView
